import Mathlib

/-!
Shallow embedding of the `extract-snippets` repository
(`src/extract-snippets.py` and `src/extract_snippets/get_snippets_from_tags.py`)
together with theorems settling the frozen claims about it.

Files are modelled as finite lists of line strings (the lazy line iterators
of the Python code are single forward passes over exactly these lines).
Python exceptions that escape a function (`StopIteration` from `next`,
`TypeError` from `None + str`) are modelled by `Option`/`Except` results.
-/

/-! ### Python string primitives used by the sources -/

/-- Characters stripped by Python `str.rstrip()` (ASCII whitespace). -/
def pyIsSpace (c : Char) : Bool :=
  c == ' ' || c == '\t' || c == '\n' || c == '\r' || c == '\x0b' || c == '\x0c'

/-- Models Python `str.rstrip()`: remove trailing whitespace. -/
def rstrip (s : String) : String :=
  ⟨(s.data.reverse.dropWhile pyIsSpace).reverse⟩

/-- Leftmost occurrence (character index) of `pat` in a character list, if any.
Helper for Python `str.find`. -/
def pyFindAux (pat : List Char) : List Char → Option Nat
  | [] => if pat.isEmpty then some 0 else none
  | c :: cs =>
    if pat.isPrefixOf (c :: cs) then some 0
    else (pyFindAux pat cs).map (· + 1)

/-- Models Python `text.find(ss)`: index of the leftmost occurrence, `-1` if absent. -/
def pyFind (text ss : String) : Int :=
  match pyFindAux ss.data text.data with
  | some n => (n : Int)
  | none => -1

/-- Models `find_wrapper` (both source files): `return text.find(ss)`. -/
def find_wrapper (text ss : String) : Int :=
  pyFind text ss

/-- Models Python `text[a:b]` for `0 ≤ a ≤ b` (character slicing). -/
def pySlice (s : String) (a b : Nat) : String :=
  ⟨(s.data.take b).drop a⟩

/-- Models Python `s[d:]` including negative start indices. -/
def pySliceFrom (s : String) (d : Int) : String :=
  if 0 ≤ d then ⟨s.data.drop d.toNat⟩
  else ⟨s.data.drop (s.data.length - min (-d).toNat s.data.length)⟩

/-- Models `os.path.join(a, b)` for the POSIX cases exercised by the sources. -/
def path_join (a b : String) : String :=
  if b.data.take 1 = ['/'] then b
  else if a.data = [] then b
  else if a.data.getLast? = some '/' then a ++ b
  else a ++ "/" ++ b

/-- Models Python `s.replace(a, b)` for a single-character pattern `a` and
single-character replacement `b`. -/
def replaceChar (a b : Char) (s : String) : String :=
  ⟨s.data.map (fun c => if c = a then b else c)⟩

/-- Models Python `s.split(sep)` for a single-character separator. -/
def splitOnChar (sep : Char) : List Char → List (List Char)
  | [] => [[]]
  | c :: cs =>
    if c = sep then [] :: splitOnChar sep cs
    else
      match splitOnChar sep cs with
      | [] => [[c]]
      | g :: gs => (c :: g) :: gs

/-- Models Python `s.replace(x, "")` for a two-character pattern `[a, b]`:
delete leftmost non-overlapping occurrences, scanning left to right. -/
def stripSeq2 (a b : Char) : List Char → List Char
  | [] => []
  | [x] => [x]
  | x :: y :: rest =>
    if x = a ∧ y = b then stripSeq2 a b rest
    else x :: stripSeq2 a b (y :: rest)

/-- Models Python `s.replace(xyz, "")` for a three-character pattern `[a, b, c]`:
delete leftmost non-overlapping occurrences, scanning left to right. -/
def stripSeq3 (a b c : Char) : List Char → List Char
  | [] => []
  | [x] => [x]
  | [x, y] => [x, y]
  | x :: y :: z :: rest =>
    if x = a ∧ y = b ∧ z = c then stripSeq3 a b c rest
    else x :: stripSeq3 a b c (y :: z :: rest)

/-- Whether the pattern occurs as a contiguous subsequence of the list. -/
def occursIn (pat : List Char) : List Char → Bool
  | [] => pat.isEmpty
  | c :: cs => pat.isPrefixOf (c :: cs) || occursIn pat cs

/-- Rightmost index of `'.'`, starting the count at `i`. Helper for `splitext`. -/
def lastDotIdxAux : List Char → Nat → Option Nat
  | [], _ => none
  | c :: cs, i =>
    match lastDotIdxAux cs (i + 1) with
    | some j => some j
    | none => if c = '.' then some i else none

/-- Models `os.path.splitext` on a bare filename (no directory separators):
split at the rightmost dot, unless all characters before it are dots. -/
def splitext (name : String) : String × String :=
  let cs := name.data
  match lastDotIdxAux cs 0 with
  | none => (name, "")
  | some i =>
    let lead := (cs.takeWhile (fun c => c = '.')).length
    if lead < i then (⟨cs.take i⟩, ⟨cs.drop i⟩) else (name, "")

/-! ### Tag matcher

Models `TAG_REGEX = {{(?P<book>\w+):(?P<tag>[\w'-]+):(?P<marker>(begin|end))}}`
and `re.search`.  The character classes exclude the delimiters `:` and `}`,
so the regex engine's greedy matching with backtracking is equivalent to the
deterministic maximal-munch scan implemented here; `re.search` tries each
start position from the left. -/

/-- Python `\w` (ASCII fragment): letters, digits, underscore. -/
def isWordChar (c : Char) : Bool :=
  c.isAlphanum || c == '_'

/-- The regex class `[\w'-]` used for the `tag` field. -/
def isTagChar (c : Char) : Bool :=
  isWordChar c || c == '-' || c == '\''

/-- Result of a successful regex search: captured fields plus the span
`[start, stop)` of the whole match, in character offsets. -/
structure TagMatch where
  book : String
  tag : String
  marker : String
  start : Nat
  stop : Nat
deriving DecidableEq, Repr

/-- Attempt to match `TAG_REGEX` anchored at the head of `cs`;
returns captured fields and the length of the match. -/
def matchTagAt (cs : List Char) : Option (String × String × String × Nat) :=
  match cs with
  | '{' :: '{' :: rest =>
    let book := rest.takeWhile isWordChar
    match rest.dropWhile isWordChar with
    | ':' :: r2 =>
      let tg := r2.takeWhile isTagChar
      match r2.dropWhile isTagChar with
      | ':' :: r4 =>
        if book.length == 0 || tg.length == 0 then none
        else if r4.take 7 == ['b', 'e', 'g', 'i', 'n', '}', '}'] then
          some (⟨book⟩, ⟨tg⟩, "begin", book.length + tg.length + 11)
        else if r4.take 5 == ['e', 'n', 'd', '}', '}'] then
          some (⟨book⟩, ⟨tg⟩, "end", book.length + tg.length + 9)
        else none
      | _ => none
    | _ => none
  | _ => none

/-- Scan start positions left to right, as `re.search` does;
`i` is the offset of `cs` within the whole line. -/
def searchFrom : Nat → List Char → Option TagMatch
  | _, [] => none
  | i, c :: cs =>
    match matchTagAt (c :: cs) with
    | some (b, t, mk, len) => some ⟨b, t, mk, i, i + len⟩
    | none => searchFrom (i + 1) cs

/-- Models `snip_regex.search(line_info.text)` with the compiled `TAG_REGEX`. -/
def tag_search (text : String) : Option TagMatch :=
  searchFrom 0 text.data

/-! ### File scanner (`get_snippets_from_tags.py`) -/

/-- The per-match record (`doc`) built by `process_file`, including the regex
group fields merged in by `doc.update(re_dict)`. -/
structure MarkerMatch where
  path : String
  root : String
  name : String
  language : String
  line : Nat
  text : String
  match_text : String
  match_start : Nat
  match_end : Nat
  fq_tag : String
  book : String
  tag : String
  marker : String
deriving DecidableEq, Repr

/-- Build one `doc` record from a matched line, as in `process_file`;
`n` is the `line_reader` number (1-indexed) of the line, and the record's
`line` field is `line_info.number + 1` exactly as in the source. -/
def mk_doc (path root name language text : String) (n : Nat) (r : TagMatch) : MarkerMatch :=
  { path := path
    root := root
    name := name
    language := language
    line := n + 1
    text := text
    match_text := pySlice text r.start r.stop
    match_start := r.start
    match_end := r.stop
    fq_tag := pySlice text (r.start + 2) (r.stop - 2)
    book := r.book
    tag := r.tag
    marker := r.marker }

/-- The match-collection loop of `process_file`: `line_reader` numbering fused
with the `for line_info in reader` loop; `k` is the number of the next line. -/
def collectFrom (path root name language : String) : Nat → List String → List MarkerMatch
  | _, [] => []
  | k, text :: rest =>
    match tag_search text with
    | some r => mk_doc path root name language text k r :: collectFrom path root name language (k + 1) rest
    | none => collectFrom path root name language (k + 1) rest

/-- All `doc` records collected by `process_file` for a file, in line order
(`line_reader` starts at 1). -/
def collectMatches (path root name language : String) (lines : List String) : List MarkerMatch :=
  collectFrom path root name language 1 lines

/-- Models `itertools.groupby(results, key)`: maximal runs of consecutive
elements with equal keys, each run keyed by its elements' key. -/
def chunksBy {α : Type} (key : α → String) : List α → List (String × List α)
  | [] => []
  | a :: as =>
    match chunksBy key as with
    | [] => [(key a, [a])]
    | (k, g) :: rest =>
      if key a = k then (key a, a :: g) :: rest
      else (key a, [a]) :: (k, g) :: rest

/-- Stable insertion used by `sortByLine` (models Python's stable `list.sort`). -/
def insertByLine (m : MarkerMatch) : List MarkerMatch → List MarkerMatch
  | [] => [m]
  | x :: xs => if m.line ≤ x.line then m :: x :: xs else x :: insertByLine m xs

/-- Models `group_values.sort(key=lambda d: d['line'])` (stable, ascending). -/
def sortByLine : List MarkerMatch → List MarkerMatch
  | [] => []
  | x :: xs => insertByLine x (sortByLine xs)

/-- Association-list lookup, modelling Python dict indexing. -/
def lookupG {β : Type} (k : String) : List (String × β) → Option β
  | [] => none
  | (k', v) :: rest => if k' = k then some v else lookupG k rest

/-- Models `groups[group_name] = group_values` on a dict: replace in place if
the key is present (Python dicts keep the original position), else append. -/
def upsert {β : Type} (k : String) (v : β) : List (String × β) → List (String × β)
  | [] => [(k, v)]
  | (k', v') :: rest =>
    if k' = k then (k, v) :: rest else (k', v') :: upsert k v rest

/-- One iteration of the validation loop of `process_file`: sort the group by
line, inspect the set of distinct markers, keep the group iff that set has
exactly two elements (else print a diagnostic and continue). -/
def group_step (acc : List (String × List MarkerMatch)) (c : String × List MarkerMatch) :
    List (String × List MarkerMatch) :=
  let g' := sortByLine c.2
  if ((g'.map (fun d => d.marker)).dedup).length == 2 then upsert c.1 g' acc else acc

/-- The grouping/validation phase of `process_file` (the `groups = {}` loop). -/
def buildGroups (chunks : List (String × List MarkerMatch)) : List (String × List MarkerMatch) :=
  chunks.foldl group_step []

/-- Models `process_file(root, name, extension, snip_regex)`: collect matches,
group consecutively by tag (`itertools.groupby`), validate marker sets.
The file's contents are passed as its list of lines. -/
def process_file (root name extension : String) (lines : List String) :
    List (String × List MarkerMatch) :=
  let path := path_join root name
  let results := collectMatches path root name ⟨extension.data.drop 1⟩ lines
  buildGroups (chunksBy (fun d => d.tag) results)

/-! ### Delimiter extractors -/

namespace GetSnippets

/-- Models `extract_delimiters_simple(infile, after_string, before_string)` from
`get_snippets_from_tags.py`: rstrip all lines, drop leading blank lines, drop
lines up to the first containing `after_string`, consume that line with
`next(rest)` (`StopIteration` when the sequence is exhausted is modelled as
`none`), then take lines while `before_string` is absent. -/
def extract_delimiters_simple (infile : List String) (after_string before_string : String) :
    Option (List String) :=
  let data := infile.map rstrip
  let data2 := data.dropWhile (fun text => text.length == 0)
  match data2.dropWhile (fun text => decide (pyFind text after_string < 0)) with
  | [] => none
  | _ :: rest => some (rest.takeWhile (fun text => decide (find_wrapper text before_string < 0)))

end GetSnippets

namespace ExtractSnippets

/-- Models `extract_delimiters_simple(args, infile)` from `extract-snippets.py`
(no leading-blank-line removal). -/
def extract_delimiters_simple (infile : List String) (after_string before_string : String) :
    Option (List String) :=
  let data := infile.map rstrip
  match data.dropWhile (fun text => decide (pyFind text after_string < 0)) with
  | [] => none
  | _ :: rest => some (rest.takeWhile (fun text => decide (find_wrapper text before_string < 0)))

/-- The `LineInfo` namedtuple of `extract-snippets.py`. -/
structure LineInfo where
  number : Nat
  text : String
deriving DecidableEq, Repr

/-- Models `numbered_reader(infile)`: 1-indexed numbering (the first call site
passes `n = 1`), each line rstripped. -/
def numbered_reader : Nat → List String → List LineInfo
  | _, [] => []
  | n, line :: rest => ⟨n, rstrip line⟩ :: numbered_reader (n + 1) rest

/-- Models `extract_line_range(args, infile)`: drop while `number < start_line`,
take while `number < end_line`, strip the numbers. -/
def extract_line_range (start_line end_line : Int) (infile : List String) : List String :=
  let reader := numbered_reader 1 infile
  let rest := reader.dropWhile (fun li => decide ((li.number : Int) < start_line))
  let extracted := rest.takeWhile (fun li => decide ((li.number : Int) < end_line))
  extracted.map (fun li => li.text)

/-- Models `get_header(args)`: `None` unless `args.latex_env` is truthy
(Python treats the empty string as falsy). -/
def get_header (latex_env : Option String) : Option String :=
  match latex_env with
  | some env => if env.data = [] then none else some ("\\begin\x7b" ++ env ++ "\x7d")
  | none => none

/-- Models `render_footer(args)`. -/
def render_footer (latex_env : Option String) : Option String :=
  match latex_env with
  | some env => if env.data = [] then none else some ("\\end\x7b" ++ env ++ "\x7d")
  | none => none

/-- Models `render(args, extracted, outfile)`.  The source unconditionally
evaluates `get_header(args) + "\n"`; when `get_header` returns `None` this is
`None + str`, a `TypeError`, modelled as `Except.error`.  On success the
written lines are the header, the dedented lines (`line[args.dedent:]`), and
the footer. -/
def render (latex_env : Option String) (dedent : Int) (extracted : List String) :
    Except String (List String) :=
  match get_header latex_env with
  | none => Except.error "TypeError: unsupported operand type(s) for +: NoneType and str"
  | some h =>
    match render_footer latex_env with
    | none => Except.error "TypeError: unsupported operand type(s) for +: NoneType and str"
    | some f => Except.ok (h :: extracted.map (fun line => pySliceFrom line dedent) ++ [f])

end ExtractSnippets

/-! ### Manifest filenames (`depathify` / `write_json`) -/

/-- Models `depathify(path)`: strip `"../"`, strip `"./"`, replace `"_"` and
`"/"` by `"-"`, each via Python `str.replace` in that order. -/
def depathify (path : String) : String :=
  let s1 : List Char := stripSeq3 '.' '.' '/' path.data
  let s2 : List Char := stripSeq2 '.' '/' s1
  replaceChar '/' '-' (replaceChar '_' '-' ⟨s2⟩)

/-- The manifest filename derived in `write_json`:
`depathify(os.path.join(root, basename)) + '.json'`. -/
def json_filename (root basename : String) : String :=
  depathify (path_join root basename) ++ ".json"

/-! ### Minted emitter -/

/-- Models `get_minted_env(extension)`: closed extension table with the
`"unknownlanguage"` sentinel, suffixed by `*`. -/
def get_minted_env (extension : String) : String :=
  (if extension = "c" then "ccode"
   else if extension = "cc" then "cppcode"
   else if extension = "cpp" then "cppcode"
   else if extension = "c++" then "cppcode"
   else if extension = "py" then "pycode"
   else if extension = "h" then "ccode"
   else if extension = "hh" then "ccode"
   else "unknownlanguage") ++ "*"

/-- One `.tex` fragment written by `write_minted_snippets`: the output path,
the minted environment name, the `firstnumber=` value and the body lines. -/
structure MintedBlock where
  filename : String
  env : String
  firstnumber : Nat
  body : List String
deriving DecidableEq, Repr

/-- One iteration of the `write_minted_snippets` loop for a group `kg`:
take the first two records (`groups[group][:2]`), require `begin`/`end`
markers (else the source prints `Invalid group` and continues), re-open the
source file (`contents` maps a path to its lines) and re-extract between the
two match texts.  `none` models both the skipped invalid groups and the
crash cases that validation makes unreachable. -/
def minted_group_block (outdir : String) (contents : String → List String)
    (kg : String × List MarkerMatch) : Option MintedBlock :=
  match kg.2.take 2 with
  | [b, e] =>
    if b.marker = "begin" ∧ e.marker = "end" then
      match GetSnippets.extract_delimiters_simple (contents b.path) b.match_text e.match_text with
      | some lines =>
        some { filename := path_join outdir ("snip-" ++ b.book ++ "-" ++ replaceChar '_' '-' b.tag ++ ".tex")
               env := get_minted_env b.language
               firstnumber := b.line
               body := lines }
      | none => none
    else none
  | _ => none

/-- All fragments written by `write_minted_snippets(args, groups)`, in group
order. -/
def write_minted_blocks (outdir : String) (contents : String → List String)
    (groups : List (String × List MarkerMatch)) : List MintedBlock :=
  groups.filterMap (minted_group_block outdir contents)

/-! ### Tree scanner (`process_dir`) as an event trace -/

/-- Observable actions of a `process_dir` run, in order. -/
inductive Event where
  | checkOutdir : Bool → Event
  | printMsg : String → Event
  | openFile : String → Event
  | writeFile : String → Event
deriving DecidableEq, Repr

/-- The command-line arguments of `get_snippets_from_tags.py`. -/
structure ScanArgs where
  dir : String
  outdir : String
  extensions : String
  literalinclude : Bool
  minted : Bool
  json : Bool

/-- One `(root, name)` file entry produced by `os.walk`. -/
structure FileEntry where
  root : String
  name : String

/-- The filesystem as seen by a run: whether `--outdir` exists, the `os.walk`
enumeration (order abstracted; `os.walk(basedir, topdown=False)` is
implementation-defined but fixed within a run), and file contents by path. -/
structure FS where
  outdirExists : Bool
  walk : List FileEntry
  contents : String → List String

/-- I/O events of `write_json(outdir, root, basename, data)`: the progress
print and the manifest write. -/
def write_json_events (outdir root basename : String) : List Event :=
  [Event.printMsg ("Writing output to " ++ json_filename root basename),
   Event.writeFile (path_join outdir (json_filename root basename))]

/-- I/O events of one iteration of the `write_minted_snippets` loop: either
the `Invalid group` diagnostic or the source-file open plus fragment write. -/
def minted_group_events (outdir : String) (kg : String × List MarkerMatch) : List Event :=
  match kg.2.take 2 with
  | [b, e] =>
    if b.marker = "begin" ∧ e.marker = "end" then
      [Event.openFile b.path,
       Event.writeFile (path_join outdir ("snip-" ++ b.book ++ "-" ++ replaceChar '_' '-' b.tag ++ ".tex"))]
    else [Event.printMsg ("Invalid group " ++ kg.1)]
  | _ => [Event.printMsg ("Invalid group " ++ kg.1)]

/-- I/O events of `write_minted_snippets(args, groups)`, in group order. -/
def minted_events (outdir : String) (groups : List (String × List MarkerMatch)) : List Event :=
  (groups.map (minted_group_events outdir)).flatten

/-- I/O events of the inner loop of `process_dir` for one walked file:
extension filter, `open(path)` in `process_file`, then the selected emitters
(`write_json` only when the group dict is non-empty). -/
def file_events (args : ScanArgs) (contents : String → List String) (fe : FileEntry) : List Event :=
  let pr := splitext fe.name
  let exts := (splitOnChar ',' args.extensions.data).map (fun e => "." ++ (⟨e⟩ : String))
  if pr.2 ∈ exts then
    let path := path_join fe.root fe.name
    let snips := process_file fe.root fe.name pr.2 (contents path)
    Event.openFile path ::
      ((if args.json ∧ 0 < snips.length then write_json_events args.outdir fe.root fe.name else []) ++
       (if args.minted then minted_events args.outdir snips else []))
  else []

/-- Models `process_dir(args)`: the single `os.path.exists(outdir)` check comes
first; if it fails the run prints the message and returns, otherwise the walk
is processed. -/
def process_dir (args : ScanArgs) (fs : FS) : List Event :=
  Event.checkOutdir fs.outdirExists ::
    (if fs.outdirExists then
      (fs.walk.map (file_events args fs.contents)).flatten
    else
      [Event.printMsg ("Outdir " ++ args.outdir ++ " must exist (exiting)")])

/-- Whether an event is the output-directory existence check. -/
def isCheck : Event → Bool
  | Event.checkOutdir _ => true
  | _ => false

/-- Whether an event is a file open or a file write. -/
def isFileIO : Event → Bool
  | Event.openFile _ => true
  | Event.writeFile _ => true
  | _ => false

/-! ### Concrete fixtures used by witnesses -/

/-- The `doc` record produced for line 1 of the two-line sample file
`["{{b:X:begin}}", "{{b:X:end}}"]` under root `r`, name `f.c`. -/
def sampleBegin : MarkerMatch :=
  { path := "r/f.c"
    root := "r"
    name := "f.c"
    language := "c"
    line := 2
    text := "\x7b\x7bb:X:begin\x7d\x7d"
    match_text := "\x7b\x7bb:X:begin\x7d\x7d"
    match_start := 0
    match_end := 13
    fq_tag := "b:X:begin"
    book := "b"
    tag := "X"
    marker := "begin" }

/-- The `doc` record produced for line 2 of the same sample file. -/
def sampleEnd : MarkerMatch :=
  { path := "r/f.c"
    root := "r"
    name := "f.c"
    language := "c"
    line := 3
    text := "\x7b\x7bb:X:end\x7d\x7d"
    match_text := "\x7b\x7bb:X:end\x7d\x7d"
    match_start := 0
    match_end := 11
    fq_tag := "b:X:end"
    book := "b"
    tag := "X"
    marker := "end" }

/-! ### General list lemmas -/

theorem dropWhile_append_all {α : Type} (p : α → Bool) (xs : List α) (y : α) (ys : List α)
    (hxs : ∀ x ∈ xs, p x = true) (hy : p y = false) :
    (xs ++ y :: ys).dropWhile p = y :: ys := by
  induction xs with
  | nil => simp [List.dropWhile_cons, hy]
  | cons a as ih =>
    have ha : p a = true := hxs a (by simp)
    simp only [List.cons_append, List.dropWhile_cons, ha, if_true]
    exact ih (fun x hx => hxs x (by simp [hx]))

theorem takeWhile_append_all {α : Type} (p : α → Bool) (xs : List α) (y : α) (ys : List α)
    (hxs : ∀ x ∈ xs, p x = true) (hy : p y = false) :
    (xs ++ y :: ys).takeWhile p = xs := by
  induction xs with
  | nil => simp [List.takeWhile_cons, hy]
  | cons a as ih =>
    have ha : p a = true := hxs a (by simp)
    simp only [List.cons_append, List.takeWhile_cons, ha, if_true]
    exact congrArg (a :: ·) (ih (fun x hx => hxs x (by simp [hx])))

theorem dropWhile_append_stop {α : Type} (p : α → Bool) (xs : List α) (y : α) (ys : List α)
    (hy : p y = false) :
    (xs ++ y :: ys).dropWhile p = xs.dropWhile p ++ y :: ys := by
  induction xs with
  | nil => simp [List.dropWhile_cons, hy]
  | cons a as ih =>
    by_cases ha : p a = true
    · simp only [List.cons_append, List.dropWhile_cons, ha, if_true]
      exact ih
    · simp only [List.cons_append, List.dropWhile_cons, eq_false_of_ne_true ha]
      simp

theorem mem_of_mem_dropWhile {α : Type} {p : α → Bool} {l : List α} {x : α}
    (h : x ∈ l.dropWhile p) : x ∈ l :=
  (List.dropWhile_sublist (l := l) (p := p)).subset h

/-! ### Claim C2 -/

/-- Claim C2 (counterexample): on a six-line file, line-range extraction with
`start_line = 2, end_line = 5` returns the lines numbered 2, 3 and 4 — the
start bound is inclusive — and not the lines 3 and 4 claimed. -/
theorem claim_C2_cex :
    ExtractSnippets.extract_line_range 2 5 ["l1", "l2", "l3", "l4", "l5", "l6"] =
      ["l2", "l3", "l4"] ∧
    ExtractSnippets.extract_line_range 2 5 ["l1", "l2", "l3", "l4", "l5", "l6"] ≠
      ["l3", "l4"] := by
  refine ⟨by decide, by decide⟩

theorem reader_filter_nil_of_ge (s e : Int) (n : Nat) (ls : List String) (h : e ≤ (n : Int)) :
    (ExtractSnippets.numbered_reader n ls).filter
      (fun li => decide (s ≤ (li.number : Int)) && decide ((li.number : Int) < e)) = [] := by
  induction ls generalizing n with
  | nil => rfl
  | cons l rest ih =>
    have hd : (decide ((n : Int) < e)) = false := decide_eq_false (not_lt.mpr h)
    simp only [ExtractSnippets.numbered_reader, List.filter_cons, hd, Bool.and_false,
      Bool.false_eq_true, if_false]
    exact ih (n + 1) (le_trans h (by exact_mod_cast Nat.le_succ n))

theorem reader_takeWhile_eq_filter (s e : Int) (n : Nat) (ls : List String) (h : s ≤ (n : Int)) :
    ((ExtractSnippets.numbered_reader n ls).takeWhile
        (fun li => decide ((li.number : Int) < e))).map (fun li => li.text) =
    ((ExtractSnippets.numbered_reader n ls).filter
        (fun li => decide (s ≤ (li.number : Int)) && decide ((li.number : Int) < e))).map
      (fun li => li.text) := by
  induction ls generalizing n with
  | nil => rfl
  | cons l rest ih =>
    have hsd : decide (s ≤ (n : Int)) = true := decide_eq_true h
    by_cases he : (n : Int) < e
    · have hd : decide ((n : Int) < e) = true := decide_eq_true he
      simp only [ExtractSnippets.numbered_reader, List.takeWhile_cons, List.filter_cons, hd,
        hsd, Bool.and_self, if_true, List.map_cons]
      exact congrArg (fun xs => (rstrip l) :: xs)
        (ih (n + 1) (le_trans h (by exact_mod_cast Nat.le_succ n)))
    · have hd : decide ((n : Int) < e) = false := decide_eq_false he
      simp only [ExtractSnippets.numbered_reader, List.takeWhile_cons, List.filter_cons, hd,
        Bool.and_false, Bool.false_eq_true, if_false, List.map_nil]
      rw [reader_filter_nil_of_ge s e (n + 1) rest
        (le_trans (not_lt.mp he) (by exact_mod_cast Nat.le_succ n))]
      rfl

theorem reader_range_eq_filter (s e : Int) (n : Nat) (ls : List String) :
    (((ExtractSnippets.numbered_reader n ls).dropWhile
        (fun li => decide ((li.number : Int) < s))).takeWhile
        (fun li => decide ((li.number : Int) < e))).map (fun li => li.text) =
    ((ExtractSnippets.numbered_reader n ls).filter
        (fun li => decide (s ≤ (li.number : Int)) && decide ((li.number : Int) < e))).map
      (fun li => li.text) := by
  induction ls generalizing n with
  | nil => rfl
  | cons l rest ih =>
    by_cases hs : (n : Int) < s
    · have hd : decide ((n : Int) < s) = true := decide_eq_true hs
      have hf : decide (s ≤ (n : Int)) = false := decide_eq_false (not_le.mpr hs)
      simp only [ExtractSnippets.numbered_reader, List.dropWhile_cons, List.filter_cons, hd,
        if_true, hf, Bool.false_and, Bool.false_eq_true, if_false]
      exact ih (n + 1)
    · have hd : decide ((n : Int) < s) = false := decide_eq_false hs
      simp only [ExtractSnippets.numbered_reader, List.dropWhile_cons, hd, Bool.false_eq_true,
        if_false]
      have h2 := reader_takeWhile_eq_filter s e n (l :: rest) (not_lt.mp hs)
      simp only [ExtractSnippets.numbered_reader] at h2
      exact h2

/-- Claim C2 (amended): line-range extraction keeps exactly the lines whose
1-indexed number `n` satisfies `start_line ≤ n < end_line` — the start bound
is inclusive (`dropwhile(number < start_line)` keeps line `start_line`), the
end bound exclusive — in order, with trailing whitespace stripped.  In
particular `start_line = 2, end_line = 5` yields the lines numbered 2, 3 and 4. -/
theorem claim_C2 (start_line end_line : Int) (infile : List String) :
    ExtractSnippets.extract_line_range start_line end_line infile =
      ((ExtractSnippets.numbered_reader 1 infile).filter
        (fun li => decide (start_line ≤ (li.number : Int)) &&
                   decide ((li.number : Int) < end_line))).map (fun li => li.text) := by
  simpa [ExtractSnippets.extract_line_range] using
    reader_range_eq_filter start_line end_line 1 infile

/-! ### Claim C6 -/

/-- Claim C6 (code bug): when no wrapping environment is configured
(`args.latex_env` is `None`), `render` does not emit the extracted lines with
the header and footer absent — it evaluates `get_header(args) + "\n"` with
`get_header` returning `None`, a `TypeError`, before writing anything.
The first conjunct evaluates the code at the concrete failing input. -/
theorem claim_C6 :
    ExtractSnippets.render none 0 ["x"] =
      Except.error "TypeError: unsupported operand type(s) for +: NoneType and str" ∧
    ∀ (dedent : Int) (extracted : List String),
      ExtractSnippets.render none dedent extracted =
        Except.error "TypeError: unsupported operand type(s) for +: NoneType and str" := by
  exact ⟨rfl, fun _ _ => rfl⟩

/-! ### Claim C7 -/

/-- Claim C7 (counterexample): manifest filename derivation is not
collision-resistant.  The two distinct source paths `src/foo_bar.c` (walk root
`src`, basename `foo_bar.c`) and `src/foo/bar.c` (walk root `src/foo`,
basename `bar.c`) derive the same flat manifest filename
`src-foo-bar.c.json`, because `_` and `/` are both normalized to `-`. -/
theorem claim_C7_cex :
    path_join "src" "foo_bar.c" ≠ path_join "src/foo" "bar.c" ∧
    json_filename "src" "foo_bar.c" = json_filename "src/foo" "bar.c" := by
  refine ⟨by decide, by decide⟩

theorem stripSeq3_eq_self (a b c : Char) :
    ∀ (l : List Char), occursIn [a, b, c] l = false → stripSeq3 a b c l = l := by
  intro l
  induction l with
  | nil => intro _; rfl
  | cons x cs ih =>
    intro h
    cases cs with
    | nil => rfl
    | cons y cs2 =>
      cases cs2 with
      | nil => rfl
      | cons z rest =>
        have h0 : ([a, b, c].isPrefixOf (x :: y :: z :: rest) ||
            occursIn [a, b, c] (y :: z :: rest)) = false := h
        have hparts := Bool.or_eq_false_iff.mp h0
        have hx : ¬ (x = a ∧ y = b ∧ z = c) := by
          rintro ⟨rfl, rfl, rfl⟩
          simp [List.isPrefixOf] at hparts
        simp only [stripSeq3, if_neg hx]
        exact congrArg (x :: ·) (ih hparts.2)

theorem stripSeq2_eq_self (a b : Char) :
    ∀ (l : List Char), occursIn [a, b] l = false → stripSeq2 a b l = l := by
  intro l
  induction l with
  | nil => intro _; rfl
  | cons x cs ih =>
    intro h
    cases cs with
    | nil => rfl
    | cons y rest =>
      have h0 : ([a, b].isPrefixOf (x :: y :: rest) ||
          occursIn [a, b] (y :: rest)) = false := h
      have hparts := Bool.or_eq_false_iff.mp h0
      have hx : ¬ (x = a ∧ y = b) := by
        rintro ⟨rfl, rfl⟩
        simp [List.isPrefixOf] at hparts
      simp only [stripSeq2, if_neg hx]
      exact congrArg (x :: ·) (ih hparts.2)

theorem map_replace_eq_self (a b : Char) (l : List Char) (h : a ∉ l) :
    l.map (fun c => if c = a then b else c) = l := by
  induction l with
  | nil => rfl
  | cons x cs ih =>
    have hx : x ≠ a := fun hxa => h (hxa ▸ List.mem_cons_self x cs)
    simp only [List.map_cons, if_neg hx]
    exact congrArg (x :: ·) (ih (fun hmem => h (List.mem_cons_of_mem x hmem)))

theorem map_slash_inj (l₁ : List Char) :
    ∀ (l₂ : List Char), '-' ∉ l₁ → '-' ∉ l₂ →
      l₁.map (fun c => if c = '/' then '-' else c) =
        l₂.map (fun c => if c = '/' then '-' else c) → l₁ = l₂ := by
  induction l₁ with
  | nil =>
    intro l₂ _ _ h
    cases l₂ with
    | nil => rfl
    | cons y ys => simp at h
  | cons x xs ih =>
    intro l₂ h₁ h₂ h
    cases l₂ with
    | nil => simp at h
    | cons y ys =>
      simp only [List.map_cons, List.cons.injEq] at h
      have hx : x ≠ '-' := fun hc => h₁ (hc ▸ List.mem_cons_self x xs)
      have hy : y ≠ '-' := fun hc => h₂ (hc ▸ List.mem_cons_self y ys)
      have hxy : x = y := by
        by_cases hxs : x = '/'
        · by_cases hys : y = '/'
          · rw [hxs, hys]
          · exfalso
            rw [if_pos hxs, if_neg hys] at h
            exact hy h.1.symm
        · by_cases hys : y = '/'
          · exfalso
            rw [if_neg hxs, if_pos hys] at h
            exact hx h.1
          · rw [if_neg hxs, if_neg hys] at h
            exact h.1
      exact congrArg₂ (· :: ·) hxy
        (ih ys (fun hm => h₁ (List.mem_cons_of_mem x hm))
          (fun hm => h₂ (List.mem_cons_of_mem y hm)) h.2)

theorem depathify_eq_map (p : String)
    (h1 : occursIn ['.', '/'] p.data = false) (h2 : occursIn ['.', '.', '/'] p.data = false)
    (hu : '_' ∉ p.data) :
    (depathify p).data = p.data.map (fun c => if c = '/' then '-' else c) := by
  calc (depathify p).data
      = ((stripSeq2 '.' '/' (stripSeq3 '.' '.' '/' p.data)).map
          (fun c => if c = '_' then '-' else c)).map (fun c => if c = '/' then '-' else c) := rfl
    _ = (p.data.map (fun c => if c = '_' then '-' else c)).map
          (fun c => if c = '/' then '-' else c) := by
        rw [stripSeq3_eq_self _ _ _ _ h2, stripSeq2_eq_self _ _ _ h1]
    _ = p.data.map (fun c => if c = '/' then '-' else c) := by
        rw [map_replace_eq_self '_' '-' p.data hu]

/-- Claim C7 (amended): manifest filename derivation is deterministic and
flattening but only collision-resistant on paths that avoid the conflated
characters: for any two distinct joined source paths containing no
underscore, no hyphen, and no `./` or `../` occurrence, the derived `.json`
filenames are distinct.  (In general distinct paths may collide — see the
counterexample.) -/
theorem claim_C7 (p q : String)
    (hp1 : occursIn ['.', '/'] p.data = false) (hp2 : occursIn ['.', '.', '/'] p.data = false)
    (hpu : '_' ∉ p.data) (hph : '-' ∉ p.data)
    (hq1 : occursIn ['.', '/'] q.data = false) (hq2 : occursIn ['.', '.', '/'] q.data = false)
    (hqu : '_' ∉ q.data) (hqh : '-' ∉ q.data)
    (hne : p ≠ q) :
    depathify p ++ ".json" ≠ depathify q ++ ".json" := by
  intro hcontra
  apply hne
  have hdata : (depathify p).data ++ ".json".data = (depathify q).data ++ ".json".data := by
    rw [← String.data_append, ← String.data_append, hcontra]
  have hdp : (depathify p).data = (depathify q).data := List.append_cancel_right hdata
  rw [depathify_eq_map p hp1 hp2 hpu, depathify_eq_map q hq1 hq2 hqu] at hdp
  exact String.ext_iff.mpr (map_slash_inj p.data q.data hph hqh hdp)

/-- Claim C7 (witness): two concrete distinct safe paths derive distinct
manifest filenames. -/
theorem claim_C7_witness :
    depathify "src/main.c" ++ ".json" ≠ depathify "src/util.c" ++ ".json" :=
  claim_C7 "src/main.c" "src/util.c" (by decide) (by decide) (by decide) (by decide)
    (by decide) (by decide) (by decide) (by decide) (by decide)

/-! ### Claims C4 and C5 -/

theorem length_beq_zero_eq_false_of_ne (s : String) (h : s ≠ "") : (s.length == 0) = false := by
  apply beq_eq_false_iff_ne.mpr
  intro hlen
  apply h
  apply String.ext_iff.mpr
  have : s.data.length = 0 := hlen
  simpa using List.length_eq_zero.mp this

/-- Claim C5: when some line contains the after string (the first such line
being `la`, non-blank once rstripped) and a later line contains the before
string (the first such subsequent line being `lb`), both delimiter extractors
return exactly the lines strictly between them — boundary lines excluded,
original order preserved, trailing whitespace stripped.  Containment is as the
code tests it: on the rstripped line text. -/
theorem claim_C5 (pre mid post : List String) (la lb after_string before_string : String)
    (hpre : ∀ s ∈ pre, pyFind (rstrip s) after_string < 0)
    (hla : ¬ pyFind (rstrip la) after_string < 0)
    (hblank : rstrip la ≠ "")
    (hmid : ∀ s ∈ mid, pyFind (rstrip s) before_string < 0)
    (hlb : ¬ pyFind (rstrip lb) before_string < 0) :
    GetSnippets.extract_delimiters_simple (pre ++ la :: (mid ++ lb :: post))
        after_string before_string = some (mid.map rstrip) ∧
    ExtractSnippets.extract_delimiters_simple (pre ++ la :: (mid ++ lb :: post))
        after_string before_string = some (mid.map rstrip) := by
  have hmap : (pre ++ la :: (mid ++ lb :: post)).map rstrip =
      pre.map rstrip ++ rstrip la :: (mid.map rstrip ++ rstrip lb :: post.map rstrip) := by
    simp
  have hmemsA : ∀ x ∈ pre.map rstrip,
      (fun text => decide (pyFind text after_string < 0)) x = true := by
    intro x hx
    obtain ⟨s, hs, rfl⟩ := List.mem_map.mp hx
    exact decide_eq_true (hpre s hs)
  have hlaf : (fun text => decide (pyFind text after_string < 0)) (rstrip la) = false :=
    decide_eq_false hla
  have hmemsB : ∀ x ∈ mid.map rstrip,
      (fun text => decide (find_wrapper text before_string < 0)) x = true := by
    intro x hx
    obtain ⟨s, hs, rfl⟩ := List.mem_map.mp hx
    exact decide_eq_true (hmid s hs)
  have hlbf : (fun text => decide (find_wrapper text before_string < 0)) (rstrip lb) = false :=
    decide_eq_false hlb
  have hblankf : (fun text : String => text.length == 0) (rstrip la) = false :=
    length_beq_zero_eq_false_of_ne (rstrip la) hblank
  constructor
  · simp only [GetSnippets.extract_delimiters_simple]
    rw [hmap, dropWhile_append_stop (fun text : String => text.length == 0)
        (pre.map rstrip) (rstrip la)
        (mid.map rstrip ++ rstrip lb :: post.map rstrip) hblankf,
      dropWhile_append_all (fun text => decide (pyFind text after_string < 0))
        ((pre.map rstrip).dropWhile (fun text : String => text.length == 0)) (rstrip la)
        (mid.map rstrip ++ rstrip lb :: post.map rstrip)
        (fun x hx => hmemsA x (mem_of_mem_dropWhile hx)) hlaf]
    show some ((mid.map rstrip ++ rstrip lb :: post.map rstrip).takeWhile
        (fun text => decide (find_wrapper text before_string < 0))) = some (mid.map rstrip)
    rw [takeWhile_append_all _ _ _ _ hmemsB hlbf]
  · simp only [ExtractSnippets.extract_delimiters_simple]
    rw [hmap, dropWhile_append_all _ _ _ _ hmemsA hlaf]
    show some ((mid.map rstrip ++ rstrip lb :: post.map rstrip).takeWhile
        (fun text => decide (find_wrapper text before_string < 0))) = some (mid.map rstrip)
    rw [takeWhile_append_all _ _ _ _ hmemsB hlbf]

/-- Claim C5 (witness): the concrete example from the claim — input lines
`["a","START","x","y","END","z"]` with after string `START` and before string
`END` yield `["x","y"]` from both extractors. -/
theorem claim_C5_witness :
    GetSnippets.extract_delimiters_simple ["a", "START", "x", "y", "END", "z"]
        "START" "END" = some ["x", "y"] ∧
    ExtractSnippets.extract_delimiters_simple ["a", "START", "x", "y", "END", "z"]
        "START" "END" = some ["x", "y"] := by
  have h := claim_C5 ["a"] ["x", "y"] ["z"] "START" "END" "START" "END"
    (by decide) (by decide) (by decide) (by decide) (by decide)
  simpa using h

/-- Claim C4 (counterexample): the claimed error-free empty results do not
hold.  With input `["a","b"]` and delimiters `START`/`END` the after string
is never found and both extractors hit `next(rest)` on an exhausted sequence,
raising `StopIteration` (modelled `none`) instead of yielding an empty
sequence; with input `["a","START","x","y"]` the after string is found but no
later line contains `END`, and the extracted sequence is `["x","y"]` — all
remaining lines — not empty. -/
theorem claim_C4_cex :
    GetSnippets.extract_delimiters_simple ["a", "b"] "START" "END" = none ∧
    ExtractSnippets.extract_delimiters_simple ["a", "b"] "START" "END" = none ∧
    GetSnippets.extract_delimiters_simple ["a", "START", "x", "y"] "START" "END" =
      some ["x", "y"] ∧
    some ["x", "y"] ≠ (some ([] : List String)) := by
  refine ⟨by decide, by decide, by decide, by decide⟩

/-- Claim C4 (amended): if no line contains the after string, both extractors
raise `StopIteration` at `next(rest)` (modelled `none`) rather than yielding
an empty sequence; if the after string is found (first on `la`, non-blank
once rstripped) but no later line contains the before string, both extractors
return all remaining lines after `la` without error — empty only when `la` is
the last line. -/
theorem claim_C4 (infile : List String) (after_string before_string : String) :
    ((∀ s ∈ infile, pyFind (rstrip s) after_string < 0) →
      GetSnippets.extract_delimiters_simple infile after_string before_string = none ∧
      ExtractSnippets.extract_delimiters_simple infile after_string before_string = none) ∧
    (∀ pre la rest, infile = pre ++ la :: rest →
      (∀ s ∈ pre, pyFind (rstrip s) after_string < 0) →
      (¬ pyFind (rstrip la) after_string < 0) →
      rstrip la ≠ "" →
      (∀ s ∈ rest, pyFind (rstrip s) before_string < 0) →
      GetSnippets.extract_delimiters_simple infile after_string before_string =
        some (rest.map rstrip) ∧
      ExtractSnippets.extract_delimiters_simple infile after_string before_string =
        some (rest.map rstrip)) := by
  constructor
  · intro hall
    have hmems : ∀ x ∈ infile.map rstrip,
        (fun text => decide (pyFind text after_string < 0)) x = true := by
      intro x hx
      obtain ⟨s, hs, rfl⟩ := List.mem_map.mp hx
      exact decide_eq_true (hall s hs)
    constructor
    · simp only [GetSnippets.extract_delimiters_simple]
      rw [List.dropWhile_eq_nil_iff.mpr
        (fun x hx => hmems x (mem_of_mem_dropWhile hx))]
    · simp only [ExtractSnippets.extract_delimiters_simple]
      rw [List.dropWhile_eq_nil_iff.mpr hmems]
  · intro pre la rest hdecomp hpre hla hblank hrest
    subst hdecomp
    have hmap : (pre ++ la :: rest).map rstrip =
        pre.map rstrip ++ rstrip la :: rest.map rstrip := by simp
    have hmemsA : ∀ x ∈ pre.map rstrip,
        (fun text => decide (pyFind text after_string < 0)) x = true := by
      intro x hx
      obtain ⟨s, hs, rfl⟩ := List.mem_map.mp hx
      exact decide_eq_true (hpre s hs)
    have hlaf : (fun text => decide (pyFind text after_string < 0)) (rstrip la) = false :=
      decide_eq_false hla
    have hmemsB : ∀ x ∈ rest.map rstrip,
        (fun text => decide (find_wrapper text before_string < 0)) x = true := by
      intro x hx
      obtain ⟨s, hs, rfl⟩ := List.mem_map.mp hx
      exact decide_eq_true (hrest s hs)
    have hblankf : (fun text : String => text.length == 0) (rstrip la) = false :=
      length_beq_zero_eq_false_of_ne (rstrip la) hblank
    constructor
    · simp only [GetSnippets.extract_delimiters_simple]
      rw [hmap, dropWhile_append_stop (fun text : String => text.length == 0)
          (pre.map rstrip) (rstrip la) (rest.map rstrip) hblankf,
        dropWhile_append_all (fun text => decide (pyFind text after_string < 0))
          ((pre.map rstrip).dropWhile (fun text : String => text.length == 0)) (rstrip la)
          (rest.map rstrip)
          (fun x hx => hmemsA x (mem_of_mem_dropWhile hx)) hlaf]
      show some ((rest.map rstrip).takeWhile
          (fun text => decide (find_wrapper text before_string < 0))) =
        some (rest.map rstrip)
      rw [List.takeWhile_eq_self_iff.mpr hmemsB]
    · simp only [ExtractSnippets.extract_delimiters_simple]
      rw [hmap, dropWhile_append_all (fun text => decide (pyFind text after_string < 0))
          (pre.map rstrip) (rstrip la) (rest.map rstrip) hmemsA hlaf]
      show some ((rest.map rstrip).takeWhile
          (fun text => decide (find_wrapper text before_string < 0))) =
        some (rest.map rstrip)
      rw [List.takeWhile_eq_self_iff.mpr hmemsB]

/-- Claim C4 (witness): the amended behaviour at concrete inputs — a missing
after string gives the `StopIteration` result, and a missing before string
gives all remaining lines. -/
theorem claim_C4_witness :
    (GetSnippets.extract_delimiters_simple ["a", "b"] "S" "E" = none ∧
     ExtractSnippets.extract_delimiters_simple ["a", "b"] "S" "E" = none) ∧
    (GetSnippets.extract_delimiters_simple ["a", "S", "x"] "S" "E" = some ["x"] ∧
     ExtractSnippets.extract_delimiters_simple ["a", "S", "x"] "S" "E" = some ["x"]) := by
  constructor
  · exact (claim_C4 ["a", "b"] "S" "E").1 (by decide)
  · have h := (claim_C4 ["a", "S", "x"] "S" "E").2 ["a"] "S" ["x"] rfl
      (by decide) (by decide) (by decide) (by decide)
    simpa using h

/-! ### Scanner lemmas: matches, grouping, validation -/

theorem matchTagAt_marker (cs : List Char) (b t mk : String) (len : Nat)
    (h : matchTagAt cs = some (b, t, mk, len)) : mk = "begin" ∨ mk = "end" := by
  unfold matchTagAt at h
  repeat' split at h
  all_goals simp_all

theorem searchFrom_marker : ∀ (i : Nat) (cs : List Char) (r : TagMatch),
    searchFrom i cs = some r → r.marker = "begin" ∨ r.marker = "end" := by
  intro i cs
  induction cs generalizing i with
  | nil => intro r h; simp [searchFrom] at h
  | cons c rest ih =>
    intro r h
    rw [searchFrom] at h
    cases hm : matchTagAt (c :: rest) with
    | some v =>
      obtain ⟨b, t, mk, len⟩ := v
      rw [hm] at h
      cases h
      exact matchTagAt_marker (c :: rest) b t mk len hm
    | none =>
      rw [hm] at h
      exact ih (i + 1) r h

theorem collectFrom_spec (path root name language : String) :
    ∀ (lines : List String) (k : Nat) (m : MarkerMatch),
      m ∈ collectFrom path root name language k lines →
      ∃ i, i < lines.length ∧ m.line = k + i + 1 ∧ m.text = lines.getD i "" ∧
        ∃ r : TagMatch, tag_search (lines.getD i "") = some r ∧
          m.marker = r.marker ∧ m.tag = r.tag ∧ m.book = r.book := by
  intro lines
  induction lines with
  | nil => intro k m h; simp [collectFrom] at h
  | cons text rest ih =>
    intro k m h
    cases hs : tag_search text with
    | some r =>
      rw [collectFrom, hs] at h
      rcases List.mem_cons.mp h with rfl | hmem
      · refine ⟨0, by simp, by simp [mk_doc], by simp [mk_doc], r, by simpa using hs, ?_, ?_, ?_⟩
        · simp [mk_doc]
        · simp [mk_doc]
        · simp [mk_doc]
      · obtain ⟨i, hi, hline, htext, r', hr', hfields⟩ := ih (k + 1) m hmem
        exact ⟨i + 1, by simpa using hi, by omega, by simpa using htext, r',
          by simpa using hr', hfields⟩
    | none =>
      rw [collectFrom, hs] at h
      obtain ⟨i, hi, hline, htext, r', hr', hfields⟩ := ih (k + 1) m h
      exact ⟨i + 1, by simpa using hi, by omega, by simpa using htext, r',
        by simpa using hr', hfields⟩

theorem collectMatches_marker_domain (path root name language : String) (lines : List String)
    (m : MarkerMatch) (h : m ∈ collectMatches path root name language lines) :
    m.marker = "begin" ∨ m.marker = "end" := by
  obtain ⟨i, _, _, _, r, hr, hmk, _, _⟩ :=
    collectFrom_spec path root name language lines 1 m h
  rw [hmk]
  exact searchFrom_marker 0 (lines.getD i "").data r hr

theorem chunksBy_cons_eq {α : Type} (key : α → String) (a : α) (l : List α) :
    chunksBy key (a :: l) =
      match chunksBy key l with
      | [] => [(key a, [a])]
      | (k, g) :: rest =>
        if key a = k then (key a, a :: g) :: rest else (key a, [a]) :: (k, g) :: rest := rfl

theorem chunksBy_cons_nil {α : Type} (key : α → String) (a : α) (l : List α)
    (h : chunksBy key l = []) : chunksBy key (a :: l) = [(key a, [a])] := by
  rw [chunksBy_cons_eq, h]

theorem chunksBy_cons_pos {α : Type} (key : α → String) (a : α) (l : List α) (k : String)
    (g rest : List _) (h : chunksBy key l = (k, g) :: rest) (hk : key a = k) :
    chunksBy key (a :: l) = (key a, a :: g) :: rest := by
  rw [chunksBy_cons_eq, h]
  show (if key a = k then (key a, a :: g) :: rest else (key a, [a]) :: (k, g) :: rest) = _
  rw [if_pos hk]

theorem chunksBy_cons_neg {α : Type} (key : α → String) (a : α) (l : List α) (k : String)
    (g rest : List _) (h : chunksBy key l = (k, g) :: rest) (hk : key a ≠ k) :
    chunksBy key (a :: l) = (key a, [a]) :: (k, g) :: rest := by
  rw [chunksBy_cons_eq, h]
  show (if key a = k then (key a, a :: g) :: rest else (key a, [a]) :: (k, g) :: rest) = _
  rw [if_neg hk]

theorem chunksBy_mem_sub {α : Type} (key : α → String) :
    ∀ (l : List α) (kg : String × List α), kg ∈ chunksBy key l → ∀ m ∈ kg.2, m ∈ l := by
  intro l
  induction l with
  | nil => intro kg h; simp [chunksBy] at h
  | cons a as ih =>
    intro kg hkg m hm
    cases hc : chunksBy key as with
    | nil =>
      rw [chunksBy_cons_nil key a as hc] at hkg
      simp only [List.mem_singleton] at hkg
      subst hkg
      simp only [List.mem_singleton] at hm
      rw [hm]
      exact List.mem_cons_self a as
    | cons c rest =>
      obtain ⟨k, g⟩ := c
      by_cases hka : key a = k
      · rw [chunksBy_cons_pos key a as k g rest hc hka] at hkg
        rcases List.mem_cons.mp hkg with rfl | hrest
        · rcases List.mem_cons.mp hm with hma | hg
          · rw [hma]
            exact List.mem_cons_self a as
          · exact List.mem_cons_of_mem a
              (ih (k, g) (by rw [hc]; exact List.mem_cons_self _ _) m hg)
        · exact List.mem_cons_of_mem a
            (ih kg (by rw [hc]; exact List.mem_cons_of_mem _ hrest) m hm)
      · rw [chunksBy_cons_neg key a as k g rest hc hka] at hkg
        rcases List.mem_cons.mp hkg with rfl | hrest
        · simp only [List.mem_singleton] at hm
          rw [hm]
          exact List.mem_cons_self a as
        · exact List.mem_cons_of_mem a (ih kg (by rw [hc]; exact hrest) m hm)

theorem chunksBy_key_mem {α : Type} (key : α → String) :
    ∀ (l : List α) (kg : String × List α), kg ∈ chunksBy key l →
      ∃ m ∈ kg.2, key m = kg.1 := by
  intro l
  induction l with
  | nil => intro kg h; simp [chunksBy] at h
  | cons a as ih =>
    intro kg hkg
    cases hc : chunksBy key as with
    | nil =>
      rw [chunksBy_cons_nil key a as hc] at hkg
      simp only [List.mem_singleton] at hkg
      subst hkg
      exact ⟨a, List.mem_singleton.mpr rfl, rfl⟩
    | cons c rest =>
      obtain ⟨k, g⟩ := c
      by_cases hka : key a = k
      · rw [chunksBy_cons_pos key a as k g rest hc hka] at hkg
        rcases List.mem_cons.mp hkg with rfl | hrest
        · exact ⟨a, List.mem_cons_self a g, rfl⟩
        · exact ih kg (by rw [hc]; exact List.mem_cons_of_mem _ hrest)
      · rw [chunksBy_cons_neg key a as k g rest hc hka] at hkg
        rcases List.mem_cons.mp hkg with rfl | hrest
        · exact ⟨a, List.mem_singleton.mpr rfl, rfl⟩
        · exact ih kg (by rw [hc]; exact hrest)

theorem chunksBy_keys_ne {α : Type} (key : α → String) (l : List α) (t : String)
    (h : ∀ m ∈ l, key m ≠ t) : ∀ c ∈ chunksBy key l, c.1 ≠ t := by
  intro c hc hct
  obtain ⟨m, hm, hkey⟩ := chunksBy_key_mem key l c hc
  exact h m (chunksBy_mem_sub key l c hc m hm) (hkey.trans hct)

theorem chunksBy_cons2 {α : Type} (key : α → String) (t : String) (m1 m2 : α)
    (post : List α) (h1 : key m1 = t) (h2 : key m2 = t)
    (hpost : ∀ m ∈ post, key m ≠ t) :
    chunksBy key (m1 :: m2 :: post) = (t, [m1, m2]) :: chunksBy key post := by
  have hstep : chunksBy key (m2 :: post) = (t, [m2]) :: chunksBy key post := by
    cases hc : chunksBy key post with
    | nil =>
      rw [chunksBy_cons_nil key m2 post hc, h2]
    | cons c rest =>
      obtain ⟨k, g⟩ := c
      have hk : k ≠ t :=
        chunksBy_keys_ne key post t hpost (k, g) (by rw [hc]; exact List.mem_cons_self _ _)
      rw [chunksBy_cons_neg key m2 post k g rest hc (by rw [h2]; exact fun hkt => hk hkt.symm),
        h2, ← hc]
  rw [chunksBy_cons_pos key m1 (m2 :: post) t [m2] (chunksBy key post) hstep h1, h1]

theorem chunksBy_adjacent {α : Type} (key : α → String) (t : String) (m1 m2 : α)
    (h1 : key m1 = t) (h2 : key m2 = t) :
    ∀ (pre : List α) (post : List α), (∀ m ∈ pre, key m ≠ t) → (∀ m ∈ post, key m ≠ t) →
      ∃ A B, chunksBy key (pre ++ m1 :: m2 :: post) = A ++ (t, [m1, m2]) :: B ∧
        (∀ c ∈ A, c.1 ≠ t) ∧ (∀ c ∈ B, c.1 ≠ t) := by
  intro pre
  induction pre with
  | nil =>
    intro post _ hpost
    exact ⟨[], chunksBy key post, by simpa using chunksBy_cons2 key t m1 m2 post h1 h2 hpost,
      by simp, chunksBy_keys_ne key post t hpost⟩
  | cons x pre' ih =>
    intro post hpre hpost
    have hx : key x ≠ t := hpre x (List.mem_cons_self x pre')
    obtain ⟨A, B, hAB, hA, hB⟩ :=
      ih post (fun m hm => hpre m (List.mem_cons_of_mem x hm)) hpost
    cases A with
    | nil =>
      refine ⟨[(key x, [x])], B, ?_, ?_, hB⟩
      · rw [List.cons_append,
          chunksBy_cons_neg key x (pre' ++ m1 :: m2 :: post) t [m1, m2] B
            (by simpa using hAB) hx]
        rfl
      · intro c hc
        simp only [List.mem_singleton] at hc
        rw [hc]
        exact hx
    | cons c A' =>
      obtain ⟨k, g⟩ := c
      have hk : k ≠ t := hA (k, g) (List.mem_cons_self _ _)
      by_cases hxk : key x = k
      · refine ⟨(key x, x :: g) :: A', B, ?_, ?_, hB⟩
        · rw [List.cons_append,
            chunksBy_cons_pos key x (pre' ++ m1 :: m2 :: post) k g (A' ++ (t, [m1, m2]) :: B)
              (by simpa using hAB) hxk]
          rfl
        · intro c hc
          rcases List.mem_cons.mp hc with hch | hcA
          · rw [hch]
            rw [hxk] at hx ⊢
            exact hx
          · exact hA c (List.mem_cons_of_mem _ hcA)
      · refine ⟨(key x, [x]) :: (k, g) :: A', B, ?_, ?_, hB⟩
        · rw [List.cons_append,
            chunksBy_cons_neg key x (pre' ++ m1 :: m2 :: post) k g (A' ++ (t, [m1, m2]) :: B)
              (by simpa using hAB) hxk]
          rfl
        · intro c hc
          rcases List.mem_cons.mp hc with hch | hcA
          · rw [hch]
            exact hx
          · exact hA c hcA

theorem mem_insertByLine (m x : MarkerMatch) :
    ∀ (l : List MarkerMatch), x ∈ insertByLine m l ↔ x = m ∨ x ∈ l := by
  intro l
  induction l with
  | nil => simp [insertByLine]
  | cons y ys ih =>
    by_cases hle : m.line ≤ y.line
    · simp only [insertByLine, if_pos hle, List.mem_cons]
    · simp only [insertByLine, if_neg hle, List.mem_cons, ih]
      tauto

theorem mem_sortByLine (x : MarkerMatch) :
    ∀ (l : List MarkerMatch), x ∈ sortByLine l ↔ x ∈ l := by
  intro l
  induction l with
  | nil => simp [sortByLine]
  | cons y ys ih =>
    simp only [sortByLine, mem_insertByLine, List.mem_cons, ih]

theorem lookupG_upsert_self {β : Type} (k : String) (v : β) :
    ∀ (l : List (String × β)), lookupG k (upsert k v l) = some v := by
  intro l
  induction l with
  | nil => simp [upsert, lookupG]
  | cons e rest ih =>
    obtain ⟨k', v'⟩ := e
    by_cases hk : k' = k
    · simp [upsert, hk, lookupG]
    · simp only [upsert, if_neg hk, lookupG, if_neg hk]
      exact ih

theorem lookupG_upsert_ne {β : Type} (k k' : String) (v : β) (hne : k' ≠ k) :
    ∀ (l : List (String × β)), lookupG k (upsert k' v l) = lookupG k l := by
  intro l
  induction l with
  | nil => simp [upsert, lookupG, if_neg hne]
  | cons e rest ih =>
    obtain ⟨k'', v''⟩ := e
    by_cases hk : k'' = k'
    · rw [upsert, if_pos hk, lookupG, lookupG, if_neg hne, if_neg (hk ▸ hne)]
    · rw [upsert, if_neg hk, lookupG, lookupG]
      by_cases hkk : k'' = k
      · rw [if_pos hkk, if_pos hkk]
      · rw [if_neg hkk, if_neg hkk]
        exact ih

theorem mem_upsert {β : Type} (k : String) (v : β) :
    ∀ (l : List (String × β)) (e : String × β), e ∈ upsert k v l → e = (k, v) ∨ e ∈ l := by
  intro l
  induction l with
  | nil => intro e he; simp [upsert] at he; exact Or.inl he
  | cons p rest ih =>
    intro e he
    obtain ⟨k', v'⟩ := p
    by_cases hk : k' = k
    · rw [upsert, if_pos hk] at he
      rcases List.mem_cons.mp he with rfl | hrest
      · exact Or.inl rfl
      · exact Or.inr (List.mem_cons_of_mem _ hrest)
    · rw [upsert, if_neg hk] at he
      rcases List.mem_cons.mp he with rfl | hrest
      · exact Or.inr (List.mem_cons_self _ _)
      · rcases ih e hrest with h | h
        · exact Or.inl h
        · exact Or.inr (List.mem_cons_of_mem _ h)

theorem lookupG_mem {β : Type} (k : String) :
    ∀ (l : List (String × β)) (v : β), lookupG k l = some v → (k, v) ∈ l := by
  intro l
  induction l with
  | nil => intro v h; simp [lookupG] at h
  | cons p rest ih =>
    intro v h
    obtain ⟨k', v'⟩ := p
    by_cases hk : k' = k
    · rw [lookupG, if_pos hk] at h
      cases h
      rw [hk]
      exact List.mem_cons_self _ _
    · rw [lookupG, if_neg hk] at h
      exact List.mem_cons_of_mem _ (ih v h)

theorem foldl_groupstep_keys_ne (t : String) :
    ∀ (chunks : List (String × List MarkerMatch)),
      (∀ c ∈ chunks, c.1 ≠ t) →
      ∀ acc, lookupG t (List.foldl group_step acc chunks) = lookupG t acc := by
  intro chunks
  induction chunks with
  | nil => intro _ acc; rfl
  | cons c cs ih =>
    intro h acc
    rw [List.foldl_cons, ih (fun c' hc' => h c' (List.mem_cons_of_mem _ hc'))]
    show lookupG t
      (if (((sortByLine c.2).map (fun d => d.marker)).dedup.length == 2) = true then
        upsert c.1 (sortByLine c.2) acc else acc) = lookupG t acc
    split
    · exact lookupG_upsert_ne t c.1 _ (h c (List.mem_cons_self _ _)) acc
    · rfl

theorem buildGroups_mem_origin :
    ∀ (chunks : List (String × List MarkerMatch)) (acc : List (String × List MarkerMatch))
      (e : String × List MarkerMatch), e ∈ List.foldl group_step acc chunks →
      e ∈ acc ∨ ∃ c ∈ chunks, e.1 = c.1 ∧ e.2 = sortByLine c.2 ∧
        ((sortByLine c.2).map (fun d => d.marker)).dedup.length = 2 := by
  intro chunks
  induction chunks with
  | nil => intro acc e he; exact Or.inl he
  | cons c cs ih =>
    intro acc e he
    rw [List.foldl_cons] at he
    rcases ih (group_step acc c) e he with hacc | ⟨c', hc', hrest⟩
    · unfold group_step at hacc
      by_cases hcond : (((sortByLine c.2).map (fun d => d.marker)).dedup.length == 2) = true
      · rw [if_pos hcond] at hacc
        rcases mem_upsert c.1 (sortByLine c.2) acc e hacc with heq | hmem
        · exact Or.inr ⟨c, List.mem_cons_self _ _, by rw [heq], by rw [heq],
            by simpa using hcond⟩
        · exact Or.inl hmem
      · rw [if_neg hcond] at hacc
        exact Or.inl hacc
    · exact Or.inr ⟨c', List.mem_cons_of_mem _ hc', hrest⟩

theorem dedup_two_values (ms : List String) (hdom : ∀ x ∈ ms, x = "begin" ∨ x = "end")
    (hlen : ms.dedup.length = 2) : "begin" ∈ ms ∧ "end" ∈ ms := by
  obtain ⟨a, b, hab⟩ := List.length_eq_two.mp hlen
  have hnodup := List.nodup_dedup ms
  rw [hab] at hnodup
  have hne : a ≠ b := by
    rw [List.nodup_cons] at hnodup
    intro hcontra
    exact hnodup.1 (hcontra ▸ List.mem_singleton.mpr rfl)
  have ha : a ∈ ms := List.mem_dedup.mp (by rw [hab]; exact List.mem_cons_self _ _)
  have hb : b ∈ ms := List.mem_dedup.mp
    (by rw [hab]; exact List.mem_cons_of_mem _ (List.mem_singleton.mpr rfl))
  rcases hdom a ha with h1 | h1 <;> rcases hdom b hb with h2 | h2
  · exact absurd (h1.trans h2.symm) hne
  · exact ⟨h1 ▸ ha, h2 ▸ hb⟩
  · exact ⟨h2 ▸ hb, h1 ▸ ha⟩
  · exact absurd (h1.trans h2.symm) hne

/-! ### Claim C3 -/

/-- Claim C3 (counterexample): a tag group with two `begin` markers and one
`end` marker is retained by validation — the source only checks that the set
of distinct marker values has size two, not that there is exactly one of
each — refuting the claim that such a group is dropped. -/
theorem claim_C3_cex :
    (lookupG "Z" (process_file "r" "f.c" ".c"
      ["\x7b\x7bb:Z:begin\x7d\x7d", "\x7b\x7bb:Z:begin\x7d\x7d",
       "\x7b\x7bb:Z:end\x7d\x7d"])).isSome = true ∧
    (((lookupG "Z" (process_file "r" "f.c" ".c"
      ["\x7b\x7bb:Z:begin\x7d\x7d", "\x7b\x7bb:Z:begin\x7d\x7d",
       "\x7b\x7bb:Z:end\x7d\x7d"])).getD []).filter
        (fun m => m.marker == "begin")).length = 2 ∧
    (((lookupG "Z" (process_file "r" "f.c" ".c"
      ["\x7b\x7bb:Z:begin\x7d\x7d", "\x7b\x7bb:Z:begin\x7d\x7d",
       "\x7b\x7bb:Z:end\x7d\x7d"])).getD []).filter
        (fun m => m.marker == "end")).length = 1 := by
  refine ⟨by decide, by decide, by decide⟩

/-- Claim C3 (amended): every tag group retained after validation contains at
least one `begin` match and at least one `end` match (the set of distinct
marker values is exactly two, and markers only take these two values); groups
whose matches are all `begin` or all `end` are dropped with a diagnostic.
Exact one-of-each counts are not enforced — see the counterexample. -/
theorem claim_C3 (root name ext : String) (lines : List String) (t : String)
    (g : List MarkerMatch)
    (h : lookupG t (process_file root name ext lines) = some g) :
    g ≠ [] ∧ (∃ m ∈ g, m.marker = "begin") ∧ (∃ m ∈ g, m.marker = "end") := by
  simp only [process_file] at h
  have hmem := lookupG_mem t _ g h
  rcases buildGroups_mem_origin _ [] (t, g) hmem with habs | ⟨c, hc, _, hval, hdedup⟩
  · simp at habs
  · simp only at hval
    have hdom : ∀ x ∈ g.map (fun d => d.marker), x = "begin" ∨ x = "end" := by
      intro x hx
      obtain ⟨m, hm, rfl⟩ := List.mem_map.mp hx
      have hmc : m ∈ c.2 := (mem_sortByLine m c.2).mp (hval ▸ hm)
      exact collectMatches_marker_domain _ _ _ _ _ m
        (chunksBy_mem_sub (fun d => d.tag) _ c hc m hmc)
    have hlen : (g.map (fun d => d.marker)).dedup.length = 2 := by
      rw [hval]
      exact hdedup
    obtain ⟨hbegin, hend⟩ := dedup_two_values _ hdom hlen
    obtain ⟨mb, hmb, hmbeq⟩ := List.mem_map.mp hbegin
    obtain ⟨me, hme, hmeeq⟩ := List.mem_map.mp hend
    exact ⟨by rintro rfl; simp at hmb, ⟨mb, hmb, hmbeq⟩, ⟨me, hme, hmeeq⟩⟩

/-- Claim C3 (witness): a concrete well-formed file whose retained group
contains a begin match and an end match. -/
theorem claim_C3_witness :
    [sampleBegin, sampleEnd] ≠ [] ∧
    (∃ m ∈ [sampleBegin, sampleEnd], m.marker = "begin") ∧
    (∃ m ∈ [sampleBegin, sampleEnd], m.marker = "end") :=
  claim_C3 "r" "f.c" ".c" ["\x7b\x7bb:X:begin\x7d\x7d", "\x7b\x7bb:X:end\x7d\x7d"] "X"
    [sampleBegin, sampleEnd] (by decide)

/-! ### Claim C1 -/

/-- Claim C1 (counterexample): a file holding exactly one well-formed begin
marker and one well-formed end marker of tag `X` (book `b`), with tag `Y`'s
markers between them, does NOT yield a validated group for `X`: the grouping
uses `itertools.groupby`, which only groups consecutive runs, so `X`'s two
matches land in separate single-marker runs and both are rejected. -/
theorem claim_C1_cex :
    ((collectMatches "r/f.c" "r" "f.c" "c"
        ["\x7b\x7bb:X:begin\x7d\x7d", "\x7b\x7bb:Y:begin\x7d\x7d",
         "\x7b\x7bb:X:end\x7d\x7d", "\x7b\x7bb:Y:end\x7d\x7d"]).filter
        (fun m => m.tag == "X" && m.marker == "begin")).length = 1 ∧
    ((collectMatches "r/f.c" "r" "f.c" "c"
        ["\x7b\x7bb:X:begin\x7d\x7d", "\x7b\x7bb:Y:begin\x7d\x7d",
         "\x7b\x7bb:X:end\x7d\x7d", "\x7b\x7bb:Y:end\x7d\x7d"]).filter
        (fun m => m.tag == "X" && m.marker == "end")).length = 1 ∧
    lookupG "X" (process_file "r" "f.c" ".c"
        ["\x7b\x7bb:X:begin\x7d\x7d", "\x7b\x7bb:Y:begin\x7d\x7d",
         "\x7b\x7bb:X:end\x7d\x7d", "\x7b\x7bb:Y:end\x7d\x7d"]) = none := by
  refine ⟨by decide, by decide, by decide⟩

/-- Claim C1 (amended): for a file with exactly one well-formed begin marker
and one well-formed end marker of the same tag, the scanner collects both into
a single validated group keyed by the tag — provided no other tag's markers
appear between them, i.e. the two matches are adjacent in the file's collected
match list (`itertools.groupby` groups only consecutive runs). -/
theorem claim_C1 (root name ext t : String) (lines : List String)
    (pre post : List MarkerMatch) (m1 m2 : MarkerMatch)
    (hcol : collectMatches (path_join root name) root name ⟨ext.data.drop 1⟩ lines =
      pre ++ m1 :: m2 :: post)
    (ht1 : m1.tag = t) (ht2 : m2.tag = t)
    (hb : m1.marker = "begin") (he : m2.marker = "end")
    (hpre : ∀ m ∈ pre, m.tag ≠ t) (hpost : ∀ m ∈ post, m.tag ≠ t) :
    ∃ g, lookupG t (process_file root name ext lines) = some g ∧
      g.length = 2 ∧ m1 ∈ g ∧ m2 ∈ g := by
  obtain ⟨A, B, hAB, hA, hB⟩ :=
    chunksBy_adjacent (fun d => d.tag) t m1 m2 ht1 ht2 pre post hpre hpost
  have hsort : sortByLine [m1, m2] =
      if m1.line ≤ m2.line then [m1, m2] else [m2, m1] := by
    simp [sortByLine, insertByLine]
  have hvalid : (((sortByLine [m1, m2]).map (fun d => d.marker)).dedup.length == 2) = true := by
    rw [hsort]
    by_cases hle : m1.line ≤ m2.line
    · rw [if_pos hle]
      simp [hb, he]
    · rw [if_neg hle]
      simp [hb, he]
  refine ⟨sortByLine [m1, m2], ?_, ?_, ?_, ?_⟩
  · simp only [process_file]
    rw [hcol, hAB]
    unfold buildGroups
    rw [List.foldl_append, List.foldl_cons, foldl_groupstep_keys_ne t B hB]
    show lookupG t
      (if (((sortByLine [m1, m2]).map (fun d => d.marker)).dedup.length == 2) = true then
        upsert t (sortByLine [m1, m2]) (List.foldl group_step [] A)
      else (List.foldl group_step [] A)) = some (sortByLine [m1, m2])
    rw [if_pos hvalid]
    exact lookupG_upsert_self t _ _
  · rw [hsort]
    by_cases hle : m1.line ≤ m2.line
    · rw [if_pos hle]
      rfl
    · rw [if_neg hle]
      rfl
  · rw [hsort]
    by_cases hle : m1.line ≤ m2.line
    · rw [if_pos hle]; exact List.mem_cons_self _ _
    · rw [if_neg hle]; exact List.mem_cons_of_mem _ (List.mem_cons_self _ _)
  · rw [hsort]
    by_cases hle : m1.line ≤ m2.line
    · rw [if_pos hle]; exact List.mem_cons_of_mem _ (List.mem_cons_self _ _)
    · rw [if_neg hle]; exact List.mem_cons_self _ _

/-- Claim C1 (witness): the two-line sample file with one begin and one end
marker for tag `X` yields the validated two-element group. -/
theorem claim_C1_witness :
    ∃ g, lookupG "X" (process_file "r" "f.c" ".c"
        ["\x7b\x7bb:X:begin\x7d\x7d", "\x7b\x7bb:X:end\x7d\x7d"]) = some g ∧
      g.length = 2 ∧ sampleBegin ∈ g ∧ sampleEnd ∈ g :=
  claim_C1 "r" "f.c" ".c" "X" ["\x7b\x7bb:X:begin\x7d\x7d", "\x7b\x7bb:X:end\x7d\x7d"]
    [] [] sampleBegin sampleEnd (by decide) rfl rfl rfl rfl (by simp) (by simp)

/-! ### Claim C10 -/

/-- Claim C10: every record produced by the scanner's match collection has a
`line` field equal to the physical 1-indexed number of the matched line plus
one: the matched line sits at 0-based index `i`, its 1-indexed number is
`i + 1` (the reader numbers from 1), and the record stores `(i + 1) + 1`. -/
theorem claim_C10 (path root name language : String) (lines : List String) (m : MarkerMatch)
    (hmem : m ∈ collectMatches path root name language lines) :
    ∃ i, i < lines.length ∧ m.text = lines.getD i "" ∧
      (∃ r, tag_search m.text = some r ∧ m.marker = r.marker) ∧
      m.line = (i + 1) + 1 := by
  obtain ⟨i, hi, hline, htext, r, hr, hmk, _, _⟩ :=
    collectFrom_spec path root name language lines 1 m hmem
  exact ⟨i, hi, htext, ⟨r, htext ▸ hr, hmk⟩, by omega⟩

/-- Claim C10 (witness): the begin record of the two-line sample file comes
from 0-based index 0 (physical line 1) and stores `line = 2`. -/
theorem claim_C10_witness :
    ∃ i, i < 2 ∧ sampleBegin.text =
        (["\x7b\x7bb:X:begin\x7d\x7d", "\x7b\x7bb:X:end\x7d\x7d"].getD i "") ∧
      (∃ r, tag_search sampleBegin.text = some r ∧ sampleBegin.marker = r.marker) ∧
      sampleBegin.line = (i + 1) + 1 :=
  claim_C10 "r/f.c" "r" "f.c" "c" ["\x7b\x7bb:X:begin\x7d\x7d", "\x7b\x7bb:X:end\x7d\x7d"]
    sampleBegin (by decide)

/-! ### Claim C8 -/

/-- Claim C8 (counterexample): the emitted `firstnumber` does not in general
equal the original 1-indexed line number of the first extracted line.  Tag
`X`'s begin marker sits on physical line 3 of the file below (its record
stores `line = 4`, so the block is annotated `firstnumber = 4`), but the
delimiter re-scan stops already at physical line 1, whose text also contains
the begin match text after the leftmost (tag `Q`) regex match — so the first
extracted line is the rstripped physical line 2 (`code-a`), whose 1-indexed
number is 2, not 4, and the rendered numbering does not match the source. -/
theorem claim_C8_cex :
    write_minted_blocks "out"
      (fun _ => ["\x7b\x7ba:Q:begin\x7d\x7d\x7b\x7bb:X:begin\x7d\x7d", "code-a",
        "\x7b\x7bb:X:begin\x7d\x7d", "code-b", "\x7b\x7bb:X:end\x7d\x7d",
        "\x7b\x7ba:Q:end\x7d\x7d"])
      (process_file "r" "f.c" ".c"
        ["\x7b\x7ba:Q:begin\x7d\x7d\x7b\x7bb:X:begin\x7d\x7d", "code-a",
         "\x7b\x7bb:X:begin\x7d\x7d", "code-b", "\x7b\x7bb:X:end\x7d\x7d",
         "\x7b\x7ba:Q:end\x7d\x7d"]) =
      [MintedBlock.mk "out/snip-b-X.tex" "ccode*" 4
        ["code-a", "\x7b\x7bb:X:begin\x7d\x7d", "code-b"]] ∧
    ["code-a", "\x7b\x7bb:X:begin\x7d\x7d", "code-b"].getD 0 "" =
      rstrip ((["\x7b\x7ba:Q:begin\x7d\x7d\x7b\x7bb:X:begin\x7d\x7d", "code-a",
        "\x7b\x7bb:X:begin\x7d\x7d", "code-b", "\x7b\x7bb:X:end\x7d\x7d",
        "\x7b\x7ba:Q:end\x7d\x7d"] : List String).getD 1 "") ∧
    (4 : Nat) ≠ 1 + 1 := by
  refine ⟨by decide, by decide, by decide⟩

/-- Claim C8 (amended): every emitted minted block's `firstnumber` equals the
1-indexed number of the line immediately after the line containing the
group's own begin marker: the group's begin record `b` (the first of the
validated pair) comes from the line at 0-based index `i` (physical number
`i + 1`), and `firstnumber = b.line = i + 2`.  The body is whatever the
delimiter re-scan returns for the begin/end match texts; it starts at that
line only when the begin match text does not occur on an earlier line of the
re-read file — otherwise (see the counterexample) the body shifts while
`firstnumber` does not. -/
theorem claim_C8 (root name ext outdir : String) (lines : List String)
    (contents : String → List String) (blk : MintedBlock)
    (hmem : blk ∈ write_minted_blocks outdir contents (process_file root name ext lines)) :
    ∃ kg, kg ∈ process_file root name ext lines ∧
      ∃ b e, kg.2.take 2 = [b, e] ∧ b.marker = "begin" ∧ e.marker = "end" ∧
        blk.firstnumber = b.line ∧
        GetSnippets.extract_delimiters_simple (contents b.path) b.match_text e.match_text =
          some blk.body ∧
        ∃ i, i < lines.length ∧ b.text = lines.getD i "" ∧
          (∃ r, tag_search b.text = some r ∧ r.marker = "begin") ∧
          blk.firstnumber = i + 2 := by
  obtain ⟨kg, hkg, hblk⟩ := List.mem_filterMap.mp hmem
  have hkg2 := hkg
  simp only [process_file] at hkg2
  rcases buildGroups_mem_origin _ [] kg hkg2 with habs | ⟨c, hc, _, hval, _⟩
  · simp at habs
  · unfold minted_group_block at hblk
    split at hblk
    case h_2 => exact absurd hblk (by simp)
    case h_1 b e htake =>
      split at hblk
      case isFalse => exact absurd hblk (by simp)
      case isTrue hmarks =>
        have hbmem : b ∈ kg.2 := by
          have hins : b ∈ kg.2.take 2 := by
            rw [htake]
            exact List.mem_cons_self _ _
          exact List.mem_of_mem_take hins
        have hbres : b ∈ collectMatches (path_join root name) root name
            ⟨ext.data.drop 1⟩ lines := by
          have hbc : b ∈ c.2 := (mem_sortByLine b c.2).mp (by rw [← hval]; exact hbmem)
          exact chunksBy_mem_sub (fun d => d.tag) _ c hc b hbc
        obtain ⟨i, hi, hline, htext, r, hr, hmk, _, _⟩ :=
          collectFrom_spec _ _ _ _ lines 1 b hbres
        cases hext : GetSnippets.extract_delimiters_simple (contents b.path)
            b.match_text e.match_text with
        | none =>
          rw [hext] at hblk
          exact absurd hblk (by simp)
        | some ls =>
          rw [hext] at hblk
          cases hblk
          exact ⟨kg, hkg, b, e, htake, hmarks.1, hmarks.2, rfl, hext, i, hi, htext,
            ⟨r, by rw [htext]; exact hr, by rw [← hmk]; exact hmarks.1⟩,
            by show b.line = i + 2; omega⟩

/-- Claim C8 (witness): for the concrete three-line file whose begin marker is
on physical line 1, the emitted block carries `firstnumber = 2`, the number of
the line immediately after the begin-marker line, and its body is the
re-extraction result. -/
theorem claim_C8_witness :
    ∃ kg, kg ∈ process_file "r" "f.c" ".c"
        ["\x7b\x7bb:X:begin\x7d\x7d", "code line", "\x7b\x7bb:X:end\x7d\x7d"] ∧
      ∃ b e, kg.2.take 2 = [b, e] ∧ b.marker = "begin" ∧ e.marker = "end" ∧
        (MintedBlock.mk "out/snip-b-X.tex" "ccode*" 2 ["code line"]).firstnumber = b.line ∧
        GetSnippets.extract_delimiters_simple
            ["\x7b\x7bb:X:begin\x7d\x7d", "code line", "\x7b\x7bb:X:end\x7d\x7d"]
            b.match_text e.match_text =
          some (MintedBlock.mk "out/snip-b-X.tex" "ccode*" 2 ["code line"]).body ∧
        ∃ i, i < 3 ∧ b.text = (["\x7b\x7bb:X:begin\x7d\x7d", "code line",
            "\x7b\x7bb:X:end\x7d\x7d"] : List String).getD i "" ∧
          (∃ r, tag_search b.text = some r ∧ r.marker = "begin") ∧
          (MintedBlock.mk "out/snip-b-X.tex" "ccode*" 2 ["code line"]).firstnumber = i + 2 :=
  claim_C8 "r" "f.c" ".c" "out"
    ["\x7b\x7bb:X:begin\x7d\x7d", "code line", "\x7b\x7bb:X:end\x7d\x7d"]
    (fun _ => ["\x7b\x7bb:X:begin\x7d\x7d", "code line", "\x7b\x7bb:X:end\x7d\x7d"])
    (MintedBlock.mk "out/snip-b-X.tex" "ccode*" 2 ["code line"]) (by decide)


/-! ### Claim C9 -/

theorem write_json_events_no_check (outdir root basename : String) :
    ∀ e ∈ write_json_events outdir root basename, isCheck e = false := by
  intro e he
  rcases List.mem_cons.mp he with rfl | he2
  · rfl
  · rcases List.mem_singleton.mp he2 with rfl
    rfl

theorem minted_group_events_no_check (outdir : String) (kg : String × List MarkerMatch) :
    ∀ e ∈ minted_group_events outdir kg, isCheck e = false := by
  intro e he
  unfold minted_group_events at he
  split at he
  · split at he
    · rcases List.mem_cons.mp he with rfl | he2
      · rfl
      · rcases List.mem_singleton.mp he2 with rfl
        rfl
    · rcases List.mem_singleton.mp he with rfl
      rfl
  · rcases List.mem_singleton.mp he with rfl
    rfl

theorem file_events_no_check (args : ScanArgs) (contents : String → List String)
    (fe : FileEntry) : ∀ e ∈ file_events args contents fe, isCheck e = false := by
  intro e he
  simp only [file_events] at he
  by_cases hc : (splitext fe.name).2 ∈
      (splitOnChar ',' args.extensions.data).map (fun s => "." ++ (⟨s⟩ : String))
  · rw [if_pos hc] at he
    rcases List.mem_cons.mp he with rfl | he2
    · rfl
    · rcases List.mem_append.mp he2 with hj | hm
      · by_cases hjson : args.json = true ∧
            0 < (process_file fe.root fe.name (splitext fe.name).2
              (contents (path_join fe.root fe.name))).length
        · rw [if_pos hjson] at hj
          exact write_json_events_no_check _ _ _ e hj
        · rw [if_neg hjson] at hj
          simp at hj
      · by_cases hmint : args.minted = true
        · rw [if_pos hmint] at hm
          simp only [minted_events] at hm
          obtain ⟨l, hl, hel⟩ := List.mem_flatten.mp hm
          obtain ⟨kg, _, rfl⟩ := List.mem_map.mp hl
          exact minted_group_events_no_check _ kg e hel
        · rw [if_neg hmint] at hm
          simp at hm
  · rw [if_neg hc] at he
    simp at he

/-- Claim C9: when the output directory does not exist, `process_dir` performs
the existence check, reports the condition, and returns — its event trace is
exactly the check followed by the diagnostic print, with no file opens and no
file writes; and in every run the existence check happens exactly once, as the
first event, before any scanning. -/
theorem claim_C9 (args : ScanArgs) (fs : FS) :
    (fs.outdirExists = false →
      process_dir args fs =
        [Event.checkOutdir false,
         Event.printMsg ("Outdir " ++ args.outdir ++ " must exist (exiting)")]) ∧
    (fs.outdirExists = false →
      ∀ e ∈ process_dir args fs, isFileIO e = false) ∧
    (process_dir args fs).head? = some (Event.checkOutdir fs.outdirExists) ∧
    (process_dir args fs).countP isCheck = 1 := by
  refine ⟨?_, ?_, ?_, ?_⟩
  · intro h
    simp [process_dir, h]
  · intro h e he
    simp only [process_dir, h, if_false] at he
    rcases List.mem_cons.mp he with rfl | he2
    · rfl
    · rcases List.mem_singleton.mp he2 with rfl
      rfl
  · rfl
  · simp only [process_dir, List.countP_cons]
    have hcheck : isCheck (Event.checkOutdir fs.outdirExists) = true := rfl
    rw [hcheck, if_pos rfl]
    have hrest : (if fs.outdirExists = true then
        (fs.walk.map (file_events args fs.contents)).flatten
      else [Event.printMsg ("Outdir " ++ args.outdir ++ " must exist (exiting)")]).countP
        isCheck = 0 := by
      split
      · apply List.countP_eq_zero.mpr
        intro e he
        obtain ⟨l, hl, hel⟩ := List.mem_flatten.mp he
        obtain ⟨fe, _, rfl⟩ := List.mem_map.mp hl
        simp only [Bool.not_eq_true]
        exact file_events_no_check args fs.contents fe e hel
      · rfl
    rw [hrest]

/-- Claim C9 (witness): a concrete run with a missing output directory traces
exactly the check and the report, and a concrete run with an existing output
directory performs the check exactly once. -/
theorem claim_C9_witness :
    process_dir ⟨".", "out", "c", false, false, false⟩ ⟨false, [], fun _ => []⟩ =
      [Event.checkOutdir false,
       Event.printMsg ("Outdir " ++ "out" ++ " must exist (exiting)")] ∧
    (process_dir ⟨".", "out", "c", false, false, false⟩
        ⟨true, [], fun _ => []⟩).countP isCheck = 1 :=
  ⟨(claim_C9 ⟨".", "out", "c", false, false, false⟩ ⟨false, [], fun _ => []⟩).1 rfl,
   (claim_C9 ⟨".", "out", "c", false, false, false⟩ ⟨true, [], fun _ => []⟩).2.2.2⟩
